import Mathlib

/-!
Verification of the code-intelligence upload store (dbstore) of this
repository.  The corpus contains the store's full test suite
(`TestGetUploadByID` … `TestUpdateCommitedAt`); the SQL-backed
implementation itself is not part of the corpus, so every operation below
is modelled from the specification, with the concrete expectations of the
test suite taken as the authority wherever the two disagree.  Machine
integers and timestamps are modelled as `Int`/`Nat`, SQL rows as lists of
records, and every operation is an executable pure function on a `Store`
value.
-/

namespace UploadStore

/-- Modelled from the spec: the state enum of an upload record
(`uploading → queued → processing → {completed | failed}`, plus the
deletion states `deleting`/`deleted` and the legacy `errored` name used by
the spec text).  The test suite (`TestMarkFailed`) shows the store's
failure state is named `failed`. -/
inductive UploadState
  | uploading
  | queued
  | processing
  | completed
  | errored
  | failed
  | deleting
  | deleted
deriving DecidableEq

/-- Modelled from the spec: the `committed_at` column, which is NULL until
gitserver resolves the commit, the `-infinity` sentinel when resolution
fails, or a resolved commit date. -/
inductive CommittedAt
  | null
  | negInfinity
  | date (t : Int)
deriving DecidableEq

/-- Modelled from the spec: one row of `lsif_uploads` (the Upload record of
§3 of the spec), restricted to the attributes the verified operations
read or write. -/
structure Upload where
  id : Nat
  repositoryId : Nat := 50
  state : UploadState := .completed
  failureMessage : Option String := none
  numFailures : Nat := 0
  uploadedAt : Int := 0
  processAfter : Option Int := none
  uploadSize : Option Int := none
  numParts : Nat := 1
  uploadedParts : List Nat := []
  expired : Bool := false
  numReferences : Nat := 0
  committedAt : CommittedAt := .null
deriving DecidableEq

/-- Modelled from the spec: a row of `lsif_packages` / `lsif_references`:
a (scheme, name, version) tuple attached to an upload (`dump_id`). -/
structure PackageRow where
  dumpId : Nat
  scheme : String
  name : String
  version : String
deriving DecidableEq

/-- Modelled from the spec: the durable state the verified operations
touch: the upload rows, the package/reference index, the dirty-repository
markers, the per-repository last-scan timestamps, and the set of
repositories visible in the active search context. -/
structure Store where
  uploads : List Upload := []
  packages : List PackageRow := []
  references : List PackageRow := []
  dirty : List Nat := []
  lastIndexScan : List (Nat × Int) := []
  lastRetentionScan : List (Nat × Int) := []
  searchContextRepos : List Nat := []
deriving DecidableEq

/-- Look up the upload row with the given identifier. -/
def findUpload (st : Store) (id : Nat) : Option Upload :=
  st.uploads.find? (fun u => decide (u.id = id))

/-- The state of the upload row with the given identifier, when present. -/
def stateOf (st : Store) (id : Nat) : Option UploadState :=
  (findUpload st id).map (fun u => u.state)

/-- Modelled from the spec: `MarkRepositoryAsDirty` is an idempotent
marking of a repository as needing a visibility recomputation; here only
the membership of the dirty set is modelled. -/
def markRepositoryAsDirty (repositoryId : Nat) (dirty : List Nat) : List Nat :=
  if repositoryId ∈ dirty then dirty else repositoryId :: dirty

/-- Modelled from the spec: `MarkFailed(id, message)` moves the record to
the failure state, increments `num_failures` and stores the failure
message.  `TestMarkFailed` pins the resulting state name to `failed`. -/
def MarkFailed (st : Store) (id : Nat) (message : String) : Store :=
  { st with
    uploads := st.uploads.map fun u =>
      if u.id = id then
        { u with
          state := .failed
          failureMessage := some message
          numFailures := u.numFailures + 1 }
      else u }

/-- Modelled from the spec: `DeleteUploadByID(id)` soft-deletes a
`completed` upload (state → `deleting`) and hard-deletes any other row
(state → `deleted`), marks the owning repository dirty, and reports
whether a row was found (`TestDeleteUploadByID`,
`TestDeleteUploadByIDNotCompleted`, `TestDeleteUploadByIDMissingRow`). -/
def DeleteUploadByID (st : Store) (id : Nat) : Bool × Store :=
  match findUpload st id with
  | none => (false, st)
  | some u =>
      (true,
        { st with
          uploads := st.uploads.map fun v =>
            if v.id = id then
              { v with state := if v.state = .completed then .deleting else .deleted }
            else v
          dirty := markRepositoryAsDirty u.repositoryId st.dirty })

/-- Modelled from the spec: `AddUploadPart(id, partIndex)` records a
received part index with set semantics, so re-adding an index is a no-op
(`TestAddUploadPart`). -/
def AddUploadPart (st : Store) (id : Nat) (partIndex : Nat) : Store :=
  { st with
    uploads := st.uploads.map fun u =>
      if u.id = id then
        { u with
          uploadedParts :=
            if partIndex ∈ u.uploadedParts then u.uploadedParts
            else u.uploadedParts ++ [partIndex] }
      else u }

/-- Fold `AddUploadPart` over a list of part indices. -/
def addUploadParts (st : Store) (id : Nat) (parts : List Nat) : Store :=
  parts.foldl (fun s p => AddUploadPart s id p) st

/-- The ids of the upload rows, in row order. -/
def uploadIds (st : Store) : List Nat :=
  st.uploads.map (fun u => u.id)

/-- Modelled from the spec: the `COALESCE(process_after, uploaded_at)`
value the queue ordering of the store uses for a queued upload
(`TestGetQueuedUploadRank`: a set `process_after` takes priority over the
pure upload-time ordering). -/
def coalesceProcessAfter (u : Upload) : Int :=
  match u.processAfter with
  | none => u.uploadedAt
  | some t => t

/-- Modelled from the spec: the strict ordering of queued uploads used by
the rank computation: `COALESCE(process_after, uploaded_at)` ascending,
then `uploaded_at` ascending, ties broken by id. -/
def rankKeyLtb (a b : Upload) : Bool :=
  if coalesceProcessAfter a < coalesceProcessAfter b then true
  else if coalesceProcessAfter b < coalesceProcessAfter a then false
  else if a.uploadedAt < b.uploadedAt then true
  else if b.uploadedAt < a.uploadedAt then false
  else decide (a.id < b.id)

/-- The upload rows currently in state `queued`. -/
def queuedUploads (st : Store) : List Upload :=
  st.uploads.filter (fun u => decide (u.state = .queued))

/-- Modelled from the spec: the rank of a queued upload is its 1-based
position among all queued uploads under the queue ordering (the
`ROW_NUMBER` of the rank query), computed here by counting the queued
uploads strictly before it. -/
def uploadRank (st : Store) (u : Upload) : Nat :=
  1 + ((queuedUploads st).filter (fun v => rankKeyLtb v u)).length

/-- Modelled from the spec: `GetUploadByID(id)` returns the non-`deleted`
row with the given id when its repository is visible to the caller, paired
with its rank when the row is queued (`nil` otherwise). -/
def GetUploadByID (visible : Nat → Bool) (st : Store) (id : Nat) : Option (Upload × Option Nat) :=
  match st.uploads.find? (fun u =>
      decide (u.id = id) && decide (u.state ≠ .deleted) && visible u.repositoryId) with
  | none => none
  | some u => some (u, if u.state = .queued then some (uploadRank st u) else none)

/-- Modelled from the spec: the ordering asserted by the claim for the
rank computation, `process_after` nulls-first and then `uploaded_at`
ascending; written out from the claim's words so it can be compared with
the ordering the store actually uses. -/
def nullsFirstLtb (a b : Upload) : Bool :=
  match a.processAfter, b.processAfter with
  | none, none => decide (a.uploadedAt < b.uploadedAt)
  | none, some _ => true
  | some _, none => false
  | some s, some t =>
      if s < t then true
      else if t < s then false
      else decide (a.uploadedAt < b.uploadedAt)

/-- The rank assignment of the store is consistent with the given strict
ordering of queued uploads. -/
def rankConsistentWith (ltb : Upload → Upload → Bool) (st : Store) : Prop :=
  ∀ u ∈ queuedUploads st, ∀ v ∈ queuedUploads st,
    ltb u v = true → uploadRank st u < uploadRank st v

instance (ltb : Upload → Upload → Bool) (st : Store) :
    Decidable (rankConsistentWith ltb st) :=
  inferInstanceAs (Decidable (∀ u ∈ queuedUploads st, ∀ v ∈ queuedUploads st,
    ltb u v = true → uploadRank st u < uploadRank st v))

/-- The upload rows of `TestGetQueuedUploadRank`, with `uploadedAt` in
minutes from the base timestamp of the test. -/
def rankTestStore : Store :=
  { uploads :=
      [ { id := 1, uploadedAt := 0, state := .queued },
        { id := 2, uploadedAt := 6, state := .queued },
        { id := 3, uploadedAt := 3, state := .queued },
        { id := 4, uploadedAt := 1, state := .queued },
        { id := 5, uploadedAt := 4, state := .queued },
        { id := 6, uploadedAt := 2, state := .processing },
        { id := 7, uploadedAt := 0, state := .queued, processAfter := some 5 } ] }

/-- Two package rows carry the same (scheme, name, version) tuple. -/
def pkgMatches (p r : PackageRow) : Bool :=
  decide (p.scheme = r.scheme) && decide (p.name = r.name) && decide (p.version = r.version)

/-- Modelled from the spec: the distinct ids of the other uploads that
declare a `PackageReference` matching one of the packages exported by the
given upload; a reference row of the upload itself is excluded. -/
def referencingUploadIds (pkgs refs : List PackageRow) (id : Nat) : List Nat :=
  ((refs.filter (fun r =>
      (!decide (r.dumpId = id)) &&
      pkgs.any (fun p => decide (p.dumpId = id) && pkgMatches p r))).map
    (fun r => r.dumpId)).dedup

/-- Modelled from the spec: `UpdateNumReferences(uploadIDs)` recomputes
and stores, for each given upload, the count of other uploads declaring a
`PackageReference` matching one of its packages
(`TestUpdateNumReferences`). -/
def UpdateNumReferences (st : Store) (ids : List Nat) : Store :=
  { st with
    uploads := st.uploads.map fun u =>
      if u.id ∈ ids then
        { u with numReferences := (referencingUploadIds st.packages st.references u.id).length }
      else u }

/-- Modelled from the spec: `UpdateDependencyNumReferences(uploadIDs,
removed)` adjusts, for every upload, its stored reference count by the
number of referencing uploads among the given set, decrementing (clamped
at zero) when `removed` is true and incrementing otherwise
(`TestUpdateDependencyNumReferences`). -/
def UpdateDependencyNumReferences (st : Store) (ids : List Nat) (removed : Bool) : Store :=
  { st with
    uploads := st.uploads.map fun u =>
      let d := ((referencingUploadIds st.packages st.references u.id).filter
        (fun j => decide (j ∈ ids))).length
      { u with numReferences := if removed then u.numReferences - d else u.numReferences + d } }

/-- Modelled from the spec: `HardDeleteUploadByID(id)` cascades the
dependency reference-count decrement for the deleted upload and then
physically removes its upload, package and reference rows
(`TestHardDeleteUploadByID`). -/
def HardDeleteUploadByID (st : Store) (id : Nat) : Store :=
  let st' := UpdateDependencyNumReferences st [id] true
  { st' with
    uploads := st'.uploads.filter (fun u => !decide (u.id = id))
    packages := st'.packages.filter (fun p => !decide (p.dumpId = id))
    references := st'.references.filter (fun r => !decide (r.dumpId = id)) }

/-- Modelled from the spec: `UpdateUploadRetention(protectedIDs,
expirableIDs)` clears the expiry flag of the protected uploads and sets it
on the expirable ones (`TestUpdateUploadRetention`). -/
def UpdateUploadRetention (st : Store) (protectedIds expirableIds : List Nat) : Store :=
  { st with
    uploads := st.uploads.map fun u =>
      if u.id ∈ protectedIds then { u with expired := false }
      else if u.id ∈ expirableIds then { u with expired := true }
      else u }

/-- The eligibility condition of the store's soft-delete sweep: a
`completed` upload flagged expired whose stored `num_references` is
zero. -/
def softDeleteEligible (u : Upload) : Bool :=
  decide (u.state = .completed) && u.expired && decide (u.numReferences = 0)

/-- Modelled from the spec: `SoftDeleteExpiredUploads()` transitions every
eligible upload `completed → deleting`, marks the repositories of the
transitioned uploads dirty, and returns the number of transitioned rows;
`TestSoftDeleteExpiredUploads` pins the eligibility condition to
`num_references = 0` (a stored count over all other referencing uploads,
expired or not), not to the absence of non-expired referencing uploads. -/
def SoftDeleteExpiredUploads (st : Store) : Nat × Store :=
  let victims := st.uploads.filter softDeleteEligible
  (victims.length,
    { st with
      uploads := st.uploads.map fun u =>
        if softDeleteEligible u then { u with state := .deleting } else u
      dirty := (victims.map (fun u => u.repositoryId)).foldl
        (fun d r => markRepositoryAsDirty r d) st.dirty })

/-- Modelled from the spec: the eligibility condition claim C1 asserts for
the soft-delete sweep: flagged expired and not referenced by any other
non-expired upload's `PackageReference`; written out from the claim's
words so it can be compared with the condition the store actually uses. -/
def softDeleteEligibleSpec (st : Store) (u : Upload) : Prop :=
  u.expired = true ∧
  ¬ ∃ v ∈ st.uploads, v.expired = false ∧ v.id ≠ u.id ∧
      ∃ r ∈ st.references, r.dumpId = v.id ∧
        ∃ p ∈ st.packages, p.dumpId = u.id ∧ pkgMatches p r = true

instance (st : Store) (u : Upload) : Decidable (softDeleteEligibleSpec st u) :=
  inferInstanceAs (Decidable (_ ∧ ¬ ∃ v ∈ st.uploads, _ ∧ _ ∧ ∃ r ∈ st.references, _ ∧
    ∃ p ∈ st.packages, _ ∧ _))

/-- The stored reference count of the upload row with the given id. -/
def numReferencesOf (st : Store) (id : Nat) : Option Nat :=
  (findUpload st id).map (fun u => u.numReferences)

/-- The shared package/reference fixture of `TestUpdateNumReferences`,
`TestUpdateDependencyNumReferences` and `TestSoftDeleteExpiredUploads`:
uploads 53–56 export packages p1–p4 and uploads 51–56 declare the
references listed in those tests. -/
def pkgFixtureStore : Store :=
  { uploads := [ { id := 50 }, { id := 51 }, { id := 52 }, { id := 53 },
      { id := 54 }, { id := 55 }, { id := 56 } ]
    packages := [ ⟨53, "test", "p1", "1.2.3"⟩, ⟨54, "test", "p2", "1.2.3"⟩,
      ⟨55, "test", "p3", "1.2.3"⟩, ⟨56, "test", "p4", "1.2.3"⟩ ]
    references := [ ⟨51, "test", "p1", "1.2.3"⟩, ⟨51, "test", "p2", "1.2.3"⟩,
      ⟨51, "test", "p3", "1.2.3"⟩, ⟨52, "test", "p1", "1.2.3"⟩,
      ⟨52, "test", "p4", "1.2.3"⟩, ⟨53, "test", "p4", "1.2.3"⟩,
      ⟨54, "test", "p1", "1.2.3"⟩, ⟨55, "test", "p1", "1.2.3"⟩,
      ⟨56, "test", "p1", "1.2.3"⟩ ] }

/-- The store of `TestSoftDeleteExpiredUploads` just before the sweep:
uploads 51–54 flagged expired, reference counts freshly recomputed. -/
def softDeleteTestStore : Store :=
  UpdateNumReferences (UpdateUploadRetention pkgFixtureStore [] [51, 52, 53, 54])
    [50, 51, 52, 53, 54, 55, 56]

/-- The concrete scenario of claim C6: upload 1 exports package
p1@1.2.3 and uploads 2 and 3 each declare a reference to it. -/
def depScenarioStore : Store :=
  { uploads := [ { id := 1 }, { id := 2 }, { id := 3 } ]
    packages := [ ⟨1, "scip", "p1", "1.2.3"⟩ ]
    references := [ ⟨2, "scip", "p1", "1.2.3"⟩, ⟨3, "scip", "p1", "1.2.3"⟩ ] }

/-- The last-scan timestamp recorded for a repository, when present. -/
def lookupScan (l : List (Nat × Int)) (r : Nat) : Option Int :=
  (l.find? (fun p => decide (p.1 = r))).map (fun p => p.2)

/-- Modelled from the spec: a repository is due for a scan when it has
never been scanned or its last-scan timestamp is older than the
configured interval. -/
def scanDue (interval now : Int) : Option Int → Bool
  | none => true
  | some t => decide (interval < now - t)

/-- Record the scan timestamp `now` for repository `r`, replacing a
previous record. -/
def setScan : List (Nat × Int) → Nat → Int → List (Nat × Int)
  | [], r, now => [(r, now)]
  | p :: t, r, now => if p.1 = r then (r, now) :: t else p :: setScan t r now

/-- Record the scan timestamp `now` for every repository of the list. -/
def touchScans (l : List (Nat × Int)) (rs : List Nat) (now : Int) : List (Nat × Int) :=
  rs.foldl (fun acc r => setScan acc r now) l

/-- Modelled from the spec: the least-recently-scanned-first ordering of
candidate repositories: never-scanned repositories first, then ascending
last-scan timestamp, ties broken by repository id. -/
def scanLeb (l : List (Nat × Int)) (a b : Nat) : Bool :=
  match lookupScan l a, lookupScan l b with
  | none, none => decide (a ≤ b)
  | none, some _ => true
  | some _, none => false
  | some x, some y =>
      if x < y then true
      else if y < x then false
      else decide (a ≤ b)

/-- The least-recently-scanned-first order as a relation. -/
def scanLe (l : List (Nat × Int)) (a b : Nat) : Prop :=
  scanLeb l a b = true

instance (l : List (Nat × Int)) : DecidableRel (scanLe l) :=
  fun a b => inferInstanceAs (Decidable (scanLeb l a b = true))

/-- Modelled from the spec: the shared core of
`selectRepositoriesForIndexScan` and `selectRepositoriesForRetentionScan`:
take the candidate repositories that are due, order them
least-recently-scanned first, keep at most `limit` of them, and record
`now` as their last-scan timestamp. -/
def selectReposForScan (l : List (Nat × Int)) (interval : Int) (limit : Nat) (now : Int)
    (candidates : List Nat) : List Nat × List (Nat × Int) :=
  let due := candidates.filter (fun r => scanDue interval now (lookupScan l r))
  let sel := (List.insertionSort (scanLe l) due).take limit
  (sel, touchScans l sel now)

/-- Modelled from the spec: `selectRepositoriesForIndexScan` scans over
the repositories visible in the active search context
(`TestSelectRepositoriesForIndexScan`). -/
def selectRepositoriesForIndexScan (st : Store) (interval : Int) (limit : Nat) (now : Int) :
    List Nat × Store :=
  let res := selectReposForScan st.lastIndexScan interval limit now st.searchContextRepos
  (res.1, { st with lastIndexScan := res.2 })

/-- The repositories owning at least one `completed` upload, the
candidates of the retention scan. -/
def retentionCandidates (st : Store) : List Nat :=
  ((st.uploads.filter (fun u => decide (u.state = .completed))).map
    (fun u => u.repositoryId)).dedup

/-- Modelled from the spec: `selectRepositoriesForRetentionScan` scans
over the repositories that currently own a `completed` upload
(`TestSelectRepositoriesForRetentionScan`). -/
def selectRepositoriesForRetentionScan (st : Store) (interval : Int) (limit : Nat) (now : Int) :
    List Nat × Store :=
  let res := selectReposForScan st.lastRetentionScan interval limit now (retentionCandidates st)
  (res.1, { st with lastRetentionScan := res.2 })

/-- Modelled from the spec: `GetUploadsByIDs(ids...)` returns the
non-`deleted` rows among the given ids whose repositories are visible to
the caller (`TestGetUploadsByIDs`). -/
def GetUploadsByIDs (visible : Nat → Bool) (st : Store) (ids : List Nat) : List Upload :=
  st.uploads.filter (fun u =>
    decide (u.id ∈ ids) && decide (u.state ≠ .deleted) && visible u.repositoryId)

/-- Modelled from the spec: `GetUploads(filter)`, restricted here to the
repository-permission filtering, the `deleted`-row exclusion and the
limit/offset page together with the total count (`TestGetUploads`); the
other filter predicates are orthogonal to the verified claims. -/
def GetUploads (visible : Nat → Bool) (st : Store) (limit offset : Nat) :
    List Upload × Nat :=
  let rows := st.uploads.filter (fun u => decide (u.state ≠ .deleted) && visible u.repositoryId)
  ((rows.drop offset).take limit, rows.length)

/-- The resolved commit dates of the `completed` uploads of a repository:
`committed_at` values that are neither NULL nor the `-infinity`
sentinel. -/
def resolvedCommitDates (st : Store) (repositoryId : Nat) : List Int :=
  st.uploads.filterMap (fun u =>
    if u.repositoryId = repositoryId ∧ u.state = .completed then
      match u.committedAt with
      | .date t => some t
      | _ => none
    else none)

/-- The minimum of a list of dates, `none` when the list is empty. -/
def oldestDate : List Int → Option Int
  | [] => none
  | t :: ts =>
      match oldestDate ts with
      | none => some t
      | some s => some (min t s)

/-- Modelled from the spec: `GetOldestCommitDate(repositoryID)` returns
the earliest resolved `committed_at` among the repository's `completed`
uploads, skipping `-infinity` sentinels and unresolved rows, and reports
nothing when no such date exists (`TestGetOldestCommitDate`). -/
def GetOldestCommitDate (st : Store) (repositoryId : Nat) : Option Int :=
  oldestDate (resolvedCommitDates st repositoryId)

/-- Modelled from the spec: `UpdateCommitedAt(uploadID, committedAt)`
stores the resolved commit date on the upload row
(`TestUpdateCommitedAt`). -/
def UpdateCommitedAt (st : Store) (id : Nat) (t : Int) : Store :=
  { st with
    uploads := st.uploads.map fun u =>
      if u.id = id then { u with committedAt := .date t } else u }

/-- The store of `TestGetOldestCommitDate`: eight uploads whose commit
dates (in minutes from the base timestamp) are installed through
`UpdateCommitedAt`, with upload 3 holding the `-infinity` sentinel and
upload 4 in state `errored`. -/
def commitDateTestStore : Store :=
  UpdateCommitedAt (UpdateCommitedAt (UpdateCommitedAt (UpdateCommitedAt
    { uploads := [ { id := 1 }, { id := 2 }, { id := 3, committedAt := .negInfinity },
        { id := 4, state := .errored }, { id := 5 },
        { id := 6, repositoryId := 51 }, { id := 7, repositoryId := 51 },
        { id := 8, repositoryId := 51 } ] } 1 4) 2 6) 4 0) 6 1

theorem find?_id_of_mem {l : List Upload} {u : Upload}
    (hnodup : (l.map (fun v => v.id)).Nodup) (hu : u ∈ l) :
    l.find? (fun v => decide (v.id = u.id)) = some u := by
  induction l with
  | nil => cases hu
  | cons v t ih =>
      simp only [List.map_cons, List.nodup_cons] at hnodup
      rcases List.mem_cons.mp hu with h | h
      · subst h
        simp [List.find?]
      · have hne : v.id ≠ u.id := by
          intro he
          exact hnodup.1 (he ▸ (List.mem_map.mpr ⟨u, h, rfl⟩))
        simp only [List.find?]
        have hd : (decide (v.id = u.id)) = false := by simp [hne]
        rw [hd]
        exact ih hnodup.2 h

theorem find?_id_map {l : List Upload} {f : Upload → Upload} {id : Nat}
    (hid : ∀ u, (f u).id = u.id) :
    (l.map f).find? (fun u => decide (u.id = id)) =
      (l.find? (fun u => decide (u.id = id))).map f := by
  induction l with
  | nil => rfl
  | cons v t ih =>
      simp only [List.map_cons, List.find?]
      rw [hid v]
      by_cases h : v.id = id
      · simp [h]
      · have hd : (decide (v.id = id)) = false := by simp [h]
        rw [hd]
        exact ih

theorem findUpload_eq_some_of_mem {st : Store} {u : Upload}
    (hnodup : (uploadIds st).Nodup) (hu : u ∈ st.uploads) :
    findUpload st u.id = some u :=
  find?_id_of_mem hnodup hu

theorem findUpload_map {st : Store} {f : Upload → Upload} {id : Nat}
    (hid : ∀ u, (f u).id = u.id) :
    (st.uploads.map f).find? (fun u => decide (u.id = id)) =
      (findUpload st id).map f :=
  find?_id_map hid

theorem findUpload_MarkFailed (st : Store) (id : Nat) (message : String) (j : Nat) :
    findUpload (MarkFailed st id message) j =
      (findUpload st j).map (fun u =>
        if u.id = id then
          { u with
            state := .failed
            failureMessage := some message
            numFailures := u.numFailures + 1 }
        else u) := by
  unfold MarkFailed findUpload
  exact findUpload_map (fun u => by by_cases h : u.id = id <;> simp [h])

theorem findUpload_AddUploadPart (st : Store) (id : Nat) (partIndex : Nat) (j : Nat) :
    findUpload (AddUploadPart st id partIndex) j =
      (findUpload st j).map (fun u =>
        if u.id = id then
          { u with
            uploadedParts :=
              if partIndex ∈ u.uploadedParts then u.uploadedParts
              else u.uploadedParts ++ [partIndex] }
        else u) := by
  unfold AddUploadPart findUpload
  exact findUpload_map (fun u => by by_cases h : u.id = id <;> simp [h])

theorem uploadIds_AddUploadPart (st : Store) (id : Nat) (partIndex : Nat) :
    uploadIds (AddUploadPart st id partIndex) = uploadIds st := by
  unfold uploadIds AddUploadPart
  simp only [List.map_map]
  apply List.map_congr_left
  intro u _
  by_cases h : u.id = id <;> simp [h]

theorem mem_markRepositoryAsDirty (r : Nat) (d : List Nat) :
    r ∈ markRepositoryAsDirty r d := by
  unfold markRepositoryAsDirty
  split
  · assumption
  · exact List.mem_cons_self r d

/-- C3 (counterexample): the claim says `MarkFailed` puts the upload into
state `errored`; on the input of `TestMarkFailed` (a single `uploading`
upload) the store leaves the record in state `failed`, which is a
different state of the enum. -/
theorem MarkFailed_errored_counterexample :
    stateOf (MarkFailed { uploads := [{ id := 1, state := .uploading }] } 1 "did not like it") 1 =
      some .failed ∧
    UploadState.failed ≠ UploadState.errored := by
  exact ⟨rfl, by decide⟩

/-- C3 (amended): for every upload row, `MarkFailed(id, message)` puts the
row into state `failed`, increments its failure counter by one, stores the
failure message, and leaves every other row unchanged. -/
theorem MarkFailed_spec (st : Store) (id : Nat) (message : String) {u : Upload}
    (hnodup : (uploadIds st).Nodup) (hu : u ∈ st.uploads) (hid : u.id = id) :
    findUpload (MarkFailed st id message) id =
      some { u with
        state := .failed
        failureMessage := some message
        numFailures := u.numFailures + 1 } ∧
    (∀ v ∈ st.uploads, v.id ≠ id → findUpload (MarkFailed st id message) v.id = some v) := by
  have hf : findUpload st id = some u := hid ▸ findUpload_eq_some_of_mem hnodup hu
  constructor
  · rw [findUpload_MarkFailed, hf]
    simp [hid]
  · intro v hv hne
    have hfv : findUpload st v.id = some v := findUpload_eq_some_of_mem hnodup hv
    rw [findUpload_MarkFailed, hfv]
    simp [hne]

theorem MarkFailed_spec_witness :
    findUpload (MarkFailed { uploads := [{ id := 1, state := .uploading }] } 1 "did not like it") 1 =
      some { id := 1, state := .failed, failureMessage := some "did not like it", numFailures := 1 } := by
  have h := @MarkFailed_spec { uploads := [{ id := 1, state := .uploading }] } 1 "did not like it"
    { id := 1, state := .uploading } (by decide) (List.mem_singleton.mpr rfl) rfl
  exact h.1

/-- C4: for every existing upload row, `DeleteUploadByID` reports
found = true, leaves a `completed` row in state `deleting` (never
`deleted`), leaves an `uploading` row in state `deleted`, and marks the
owning repository dirty; when no row with the identifier exists it
reports found = false and leaves the store unchanged. -/
theorem DeleteUploadByID_spec (st : Store) (id : Nat)
    (hnodup : (uploadIds st).Nodup) :
    (∀ u ∈ st.uploads, u.id = id →
      (DeleteUploadByID st id).1 = true ∧
      stateOf (DeleteUploadByID st id).2 id =
        some (if u.state = .completed then .deleting else .deleted) ∧
      (u.state = .completed →
        stateOf (DeleteUploadByID st id).2 id = some .deleting ∧
        stateOf (DeleteUploadByID st id).2 id ≠ some .deleted) ∧
      (u.state = .uploading → stateOf (DeleteUploadByID st id).2 id = some .deleted) ∧
      u.repositoryId ∈ (DeleteUploadByID st id).2.dirty) ∧
    (findUpload st id = none → DeleteUploadByID st id = (false, st)) := by
  constructor
  · intro u hu hid
    have hf : findUpload st id = some u := hid ▸ findUpload_eq_some_of_mem hnodup hu
    have hstate : stateOf (DeleteUploadByID st id).2 id =
        some (if u.state = .completed then .deleting else .deleted) := by
      unfold DeleteUploadByID
      rw [hf]
      unfold stateOf findUpload
      simp only
      rw [find?_id_map (fun v => by by_cases h : v.id = id <;> simp [h])]
      show ((findUpload st id).map _).map _ = _
      rw [hf]
      simp [hid]
    refine ⟨?_, hstate, ?_, ?_, ?_⟩
    · unfold DeleteUploadByID
      rw [hf]
    · intro hc
      rw [hstate]
      simp [hc]
    · intro hc
      rw [hstate]
      have : u.state ≠ .completed := by rw [hc]; decide
      simp [this]
    · unfold DeleteUploadByID
      rw [hf]
      exact mem_markRepositoryAsDirty u.repositoryId st.dirty
  · intro h
    unfold DeleteUploadByID
    rw [h]

theorem DeleteUploadByID_spec_witness :
    (DeleteUploadByID { uploads := [{ id := 1, repositoryId := 50 }] } 1).1 = true ∧
    stateOf (DeleteUploadByID { uploads := [{ id := 1, repositoryId := 50 }] } 1).2 1 =
      some .deleting ∧
    (50 : Nat) ∈ (DeleteUploadByID { uploads := [{ id := 1, repositoryId := 50 }] } 1).2.dirty ∧
    stateOf (DeleteUploadByID { uploads := [{ id := 1, repositoryId := 50, state := .uploading }] } 1).2 1 =
      some .deleted ∧
    DeleteUploadByID { uploads := [{ id := 1, repositoryId := 50 }] } 2 =
      (false, { uploads := [{ id := 1, repositoryId := 50 }] }) := by
  have h1 := DeleteUploadByID_spec { uploads := [{ id := 1, repositoryId := 50 }] } 1 (by decide)
  have h2 := DeleteUploadByID_spec { uploads := [{ id := 1, repositoryId := 50, state := .uploading }] } 1 (by decide)
  have h3 := DeleteUploadByID_spec { uploads := [{ id := 1, repositoryId := 50 }] } 2 (by decide)
  obtain ⟨ha, -, hb, -, hc⟩ :=
    h1.1 { id := 1, repositoryId := 50 } (List.mem_singleton.mpr rfl) rfl
  obtain ⟨-, -, -, hd, -⟩ :=
    h2.1 { id := 1, repositoryId := 50, state := .uploading } (List.mem_singleton.mpr rfl) rfl
  exact ⟨ha, (hb rfl).1, hc, hd rfl, h3.2 rfl⟩

theorem addUploadParts_parts {st : Store} {u : Upload} {id : Nat}
    (hnodup : (uploadIds st).Nodup) (hu : u ∈ st.uploads) (hid : u.id = id)
    (parts : List Nat) :
    ∃ L, findUpload (addUploadParts st id parts) id = some { u with uploadedParts := L } ∧
      (∀ x, x ∈ L ↔ x ∈ u.uploadedParts ∨ x ∈ parts) ∧
      (u.uploadedParts.Nodup → L.Nodup) := by
  induction parts generalizing st u with
  | nil =>
      refine ⟨u.uploadedParts, ?_, by simp, fun h => h⟩
      have hf : findUpload st id = some u := hid ▸ findUpload_eq_some_of_mem hnodup hu
      simpa [addUploadParts] using hf
  | cons p ps ih =>
      have hmap : (AddUploadPart st id p).uploads = st.uploads.map (fun v =>
          if v.id = id then
            { v with
              uploadedParts :=
                if p ∈ v.uploadedParts then v.uploadedParts
                else v.uploadedParts ++ [p] }
          else v) := rfl
      set P : List Nat := if p ∈ u.uploadedParts then u.uploadedParts else u.uploadedParts ++ [p] with hP
      have hu' : ({ u with uploadedParts := P } : Upload) ∈ (AddUploadPart st id p).uploads := by
        rw [hmap]
        refine List.mem_map.mpr ⟨u, hu, ?_⟩
        simp [hid, hP]
      have hnodup' : (uploadIds (AddUploadPart st id p)).Nodup := by
        rw [uploadIds_AddUploadPart]; exact hnodup
      have hstep : addUploadParts st id (p :: ps) = addUploadParts (AddUploadPart st id p) id ps := rfl
      obtain ⟨L, hfind, hmem, hnd⟩ := ih hnodup' hu' hid
      refine ⟨L, ?_, ?_, ?_⟩
      · rw [hstep]
        exact hfind
      · intro x
        rw [hmem x]
        by_cases hp : p ∈ u.uploadedParts
        · simp only [hP, if_pos hp]
          constructor
          · rintro (h | h)
            · exact Or.inl h
            · exact Or.inr (List.mem_cons_of_mem p h)
          · rintro (h | h)
            · exact Or.inl h
            · rcases List.mem_cons.mp h with h | h
              · exact Or.inl (h ▸ hp)
              · exact Or.inr h
        · simp only [hP, if_neg hp, List.mem_append, List.mem_singleton, List.mem_cons]
          tauto
      · intro hnodupParts
        apply hnd
        by_cases hp : p ∈ u.uploadedParts
        · simpa [hP, if_pos hp] using hnodupParts
        · simp only [hP, if_neg hp]
          rw [List.nodup_append]
          exact ⟨hnodupParts, List.nodup_singleton p, by simpa using hp⟩

/-- C9: `AddUploadPart` is idempotent (adding the same part index twice
leaves the same store as adding it once), and after any sequence of
`AddUploadPart` calls the stored part collection holds exactly the
distinct indices added together with the initial ones, with no duplicate
index introduced. -/
theorem AddUploadPart_spec (st : Store) (id p : Nat) (parts : List Nat) {u : Upload}
    (hnodup : (uploadIds st).Nodup) (hu : u ∈ st.uploads) (hid : u.id = id) :
    AddUploadPart (AddUploadPart st id p) id p = AddUploadPart st id p ∧
    ∃ L, findUpload (addUploadParts st id parts) id = some { u with uploadedParts := L } ∧
      (∀ x, x ∈ L ↔ x ∈ u.uploadedParts ∨ x ∈ parts) ∧
      (u.uploadedParts.Nodup → L.Nodup) := by
  constructor
  · show ({ AddUploadPart st id p with uploads := _ } : Store) = _
    unfold AddUploadPart
    simp only [List.map_map]
    congr 1
    apply List.map_congr_left
    intro v _
    by_cases h : v.id = id
    · simp only [Function.comp, h, if_pos]
      by_cases hp : p ∈ v.uploadedParts
      · simp [hp]
      · simp [hp]
    · simp [Function.comp, h]
  · exact addUploadParts_parts hnodup hu hid parts

theorem AddUploadPart_spec_witness :
    AddUploadPart (AddUploadPart { uploads := [{ id := 1, state := .uploading }] } 1 2) 1 2 =
      AddUploadPart { uploads := [{ id := 1, state := .uploading }] } 1 2 ∧
    findUpload
        (addUploadParts { uploads := [{ id := 1, state := .uploading }] } 1 [1, 5, 2, 3, 2, 2, 1, 6]) 1 =
      some { id := 1, state := .uploading, uploadedParts := [1, 5, 2, 3, 6] } := by
  have h := @AddUploadPart_spec { uploads := [{ id := 1, state := .uploading }] } 1 2
    [1, 5, 2, 3, 2, 2, 1, 6] { id := 1, state := .uploading }
    (by decide) (List.mem_singleton.mpr rfl) rfl
  exact ⟨h.1, rfl⟩

theorem rankKeyLtb_irrefl (a : Upload) : rankKeyLtb a a = false := by
  unfold rankKeyLtb
  simp

theorem rankKeyLtb_asymm {a b : Upload} (h : rankKeyLtb a b = true) :
    rankKeyLtb b a = false := by
  unfold rankKeyLtb at h ⊢
  split_ifs at h ⊢ <;> simp_all <;> omega

theorem rankKeyLtb_trans {a b c : Upload} (hab : rankKeyLtb a b = true)
    (hbc : rankKeyLtb b c = true) : rankKeyLtb a c = true := by
  unfold rankKeyLtb at hab hbc ⊢
  split_ifs at hab hbc ⊢ <;> simp_all <;> omega

theorem rankKeyLtb_total {a b : Upload} (h : a.id ≠ b.id) :
    rankKeyLtb a b = true ∨ rankKeyLtb b a = true := by
  unfold rankKeyLtb
  split_ifs <;> simp_all <;> omega

theorem countP_lt_of_witness {α} {l : List α} {p q : α → Bool}
    (himp : ∀ x ∈ l, p x = true → q x = true) {w : α} (hw : w ∈ l)
    (hpw : p w = false) (hqw : q w = true) :
    l.countP p < l.countP q := by
  induction l with
  | nil => cases hw
  | cons a t ih =>
      have hmono : t.countP p ≤ t.countP q :=
        List.countP_mono_left (fun x hx => himp x (List.mem_cons_of_mem a hx))
      rcases List.mem_cons.mp hw with h | h
      · subst h
        rw [List.countP_cons, List.countP_cons, hpw, hqw]
        simpa using Nat.lt_succ_of_le hmono
      · have hlt := ih (fun x hx => himp x (List.mem_cons_of_mem a hx)) h
        rw [List.countP_cons, List.countP_cons]
        by_cases hpa : p a = true
        · rw [hpa, himp a (List.mem_cons_self a t) hpa]
          omega
        · have : p a = false := by simpa using hpa
          rw [this]
          by_cases hqa : q a = true <;> simp_all <;> omega

theorem eq_of_uploadId_eq {l : List Upload} (hnodup : (l.map (fun v => v.id)).Nodup)
    {u v : Upload} (hu : u ∈ l) (hv : v ∈ l) (hid : u.id = v.id) : u = v := by
  induction l with
  | nil => cases hu
  | cons a t ih =>
      simp only [List.map_cons, List.nodup_cons] at hnodup
      rcases List.mem_cons.mp hu with h1 | h1 <;> rcases List.mem_cons.mp hv with h2 | h2
      · rw [h1, h2]
      · exfalso
        apply hnodup.1
        rw [h1] at hid
        rw [hid]
        exact List.mem_map.mpr ⟨v, h2, rfl⟩
      · exfalso
        apply hnodup.1
        rw [h2] at hid
        rw [← hid]
        exact List.mem_map.mpr ⟨u, h1, rfl⟩
      · exact ih hnodup.2 h1 h2

theorem uploadRank_lt_of_ltb {st : Store} {u v : Upload} (hu : u ∈ queuedUploads st)
    (h : rankKeyLtb u v = true) : uploadRank st u < uploadRank st v := by
  unfold uploadRank
  have hc := @countP_lt_of_witness Upload (queuedUploads st)
    (fun x => rankKeyLtb x u) (fun x => rankKeyLtb x v)
    (fun x _ hx => rankKeyLtb_trans hx h) u hu (rankKeyLtb_irrefl u) h
  rw [List.countP_eq_length_filter, List.countP_eq_length_filter] at hc
  omega

theorem uploadRank_pos (st : Store) (u : Upload) : 1 ≤ uploadRank st u := by
  unfold uploadRank
  omega

theorem uploadRank_le_length {st : Store} {u : Upload} (hu : u ∈ queuedUploads st) :
    uploadRank st u ≤ (queuedUploads st).length := by
  unfold uploadRank
  have hc := @countP_lt_of_witness Upload (queuedUploads st)
    (fun x => rankKeyLtb x u) (fun _ => true)
    (fun x _ _ => rfl) u hu (rankKeyLtb_irrefl u) rfl
  rw [List.countP_eq_length_filter] at hc
  have htrue : (queuedUploads st).countP (fun _ => true) = (queuedUploads st).length :=
    congrFun List.countP_true (queuedUploads st)
  omega

theorem uploadRank_lt_iff {st : Store} (hnodup : (uploadIds st).Nodup)
    {u v : Upload} (hu : u ∈ queuedUploads st) (hv : v ∈ queuedUploads st) :
    uploadRank st u < uploadRank st v ↔ rankKeyLtb u v = true := by
  constructor
  · intro h
    by_contra hne
    have hne' : rankKeyLtb u v = false := Bool.eq_false_iff.mpr hne
    by_cases heq : u = v
    · rw [heq] at h
      exact absurd h (lt_irrefl _)
    · have hidne : u.id ≠ v.id := fun hid =>
        heq (eq_of_uploadId_eq hnodup (List.mem_of_mem_filter hu) (List.mem_of_mem_filter hv) hid)
      rcases rankKeyLtb_total hidne with htot | htot
      · rw [htot] at hne'
        cases hne'
      · have := uploadRank_lt_of_ltb hv htot
        omega
  · exact uploadRank_lt_of_ltb hu

theorem uploadRank_surjective {st : Store} (hnodup : (uploadIds st).Nodup) :
    ∀ k, 1 ≤ k → k ≤ (queuedUploads st).length →
      ∃ w ∈ queuedUploads st, uploadRank st w = k := by
  intro k hk1 hk2
  have hqnodup : (queuedUploads st).Nodup := (List.Nodup.of_map _ hnodup).filter _
  have hinj : ∀ x ∈ queuedUploads st, ∀ y ∈ queuedUploads st,
      uploadRank st x = uploadRank st y → x = y := by
    intro x hx y hy hr
    by_contra hne
    have hid : x.id ≠ y.id := fun h =>
      hne (eq_of_uploadId_eq hnodup (List.mem_of_mem_filter hx) (List.mem_of_mem_filter hy) h)
    rcases rankKeyLtb_total hid with h | h
    · have := uploadRank_lt_of_ltb hx h
      omega
    · have := uploadRank_lt_of_ltb hy h
      omega
  have hmapnodup : ((queuedUploads st).map (uploadRank st)).Nodup :=
    List.Nodup.map_on hinj hqnodup
  have hcard : ((queuedUploads st).map (uploadRank st)).toFinset.card =
      (queuedUploads st).length := by
    rw [List.toFinset_card_of_nodup hmapnodup, List.length_map]
  have hsub : ((queuedUploads st).map (uploadRank st)).toFinset ⊆
      Finset.Icc 1 (queuedUploads st).length := by
    intro r hr
    rw [List.mem_toFinset] at hr
    obtain ⟨w, hw, hwr⟩ := List.mem_map.mp hr
    rw [Finset.mem_Icc]
    exact ⟨hwr ▸ uploadRank_pos st w, hwr ▸ uploadRank_le_length hw⟩
  have hicc : (Finset.Icc 1 (queuedUploads st).length).card = (queuedUploads st).length := by
    rw [Nat.card_Icc]
    omega
  have heq : ((queuedUploads st).map (uploadRank st)).toFinset =
      Finset.Icc 1 (queuedUploads st).length :=
    Finset.eq_of_subset_of_card_le hsub (by rw [hcard, hicc])
  have hkmem : k ∈ ((queuedUploads st).map (uploadRank st)).toFinset := by
    rw [heq, Finset.mem_Icc]
    exact ⟨hk1, hk2⟩
  rw [List.mem_toFinset] at hkmem
  obtain ⟨w, hw, hwk⟩ := List.mem_map.mp hkmem
  exact ⟨w, hw, hwk⟩

theorem find?_pred_of_mem {l : List Upload} {u : Upload} {p : Upload → Bool}
    (hnodup : (l.map (fun v => v.id)).Nodup) (hu : u ∈ l) (hp : p u = true)
    (hid : ∀ v, p v = true → v.id = u.id) : l.find? p = some u := by
  induction l with
  | nil => cases hu
  | cons a t ih =>
      simp only [List.map_cons, List.nodup_cons] at hnodup
      rcases List.mem_cons.mp hu with h | h
      · subst h
        simp [List.find?, hp]
      · have hpa : p a = false := by
          by_contra hne
          have hpa' : p a = true := Bool.eq_false_iff.not_left.mp hne
          have hida : a.id = u.id := hid a hpa'
          exact hnodup.1 (hida ▸ List.mem_map.mpr ⟨u, h, rfl⟩)
        simp only [List.find?, hpa]
        exact ih hnodup.2 h

theorem GetUploadByID_eq_some {st : Store} {visible : Nat → Bool} {u : Upload}
    (hnodup : (uploadIds st).Nodup) (hu : u ∈ st.uploads)
    (hdel : u.state ≠ .deleted) (hvis : visible u.repositoryId = true) :
    GetUploadByID visible st u.id =
      some (u, if u.state = .queued then some (uploadRank st u) else none) := by
  unfold GetUploadByID
  have hf := find?_pred_of_mem hnodup hu (p := fun v =>
      decide (v.id = u.id) && decide (v.state ≠ .deleted) && visible v.repositoryId)
    (by simp [hdel, hvis]) ?_
  · rw [hf]
  · intro v hv
    simp only [Bool.and_eq_true, decide_eq_true_eq] at hv
    exact hv.1.1

/-- C2 (counterexample): on the uploads of `TestGetQueuedUploadRank` the
rank assignment is not consistent with a `process_after` nulls-first
ordering: upload 2 (null `process_after`) gets rank 6 while upload 7 (a
set `process_after`) gets rank 5, so a null row ranks after a non-null
row, as the test expects (a set `process_after` takes priority over pure
upload-time ordering via `COALESCE`, rather than ordering nulls first). -/
theorem GetQueuedUploadRank_nullsFirst_counterexample :
    ¬ rankConsistentWith nullsFirstLtb rankTestStore ∧
    GetUploadByID (fun _ => true) rankTestStore 2 =
      some ({ id := 2, uploadedAt := 6, state := .queued }, some 6) ∧
    GetUploadByID (fun _ => true) rankTestStore 7 =
      some ({ id := 7, uploadedAt := 0, state := .queued, processAfter := some 5 }, some 5) ∧
    nullsFirstLtb { id := 2, uploadedAt := 6, state := .queued }
      { id := 7, uploadedAt := 0, state := .queued, processAfter := some 5 } = true := by
  exact ⟨by decide, rfl, rfl, rfl⟩

/-- C2 (amended): for every store with distinct upload ids, the rank
reported by `GetUploadByID` is a dense 1..N ordering over exactly the
uploads in state `queued`, consistent with ordering by
`COALESCE(process_after, uploaded_at)` ascending and then by `uploaded_at`
ascending (ties by id); every upload not in state `queued` has rank
`none`. -/
theorem GetUploadByID_rank_spec (st : Store) (visible : Nat → Bool) {u : Upload}
    (hnodup : (uploadIds st).Nodup) (hu : u ∈ st.uploads)
    (hdel : u.state ≠ .deleted) (hvis : visible u.repositoryId = true) :
    (u.state ≠ .queued → GetUploadByID visible st u.id = some (u, none)) ∧
    (u.state = .queued →
      GetUploadByID visible st u.id = some (u, some (uploadRank st u)) ∧
      1 ≤ uploadRank st u ∧ uploadRank st u ≤ (queuedUploads st).length) ∧
    (∀ v ∈ queuedUploads st, u ∈ queuedUploads st →
      (uploadRank st u < uploadRank st v ↔ rankKeyLtb u v = true) ∧
      (u ≠ v → uploadRank st u ≠ uploadRank st v)) ∧
    (∀ k, 1 ≤ k → k ≤ (queuedUploads st).length →
      ∃ w ∈ queuedUploads st, uploadRank st w = k) := by
  have hsome := GetUploadByID_eq_some hnodup hu hdel hvis
  refine ⟨?_, ?_, ?_, uploadRank_surjective hnodup⟩
  · intro h
    rw [hsome]
    simp [h]
  · intro h
    refine ⟨by rw [hsome]; simp [h], uploadRank_pos st u, ?_⟩
    exact uploadRank_le_length (List.mem_filter.mpr ⟨hu, by simp [h]⟩)
  · intro v hv huq
    refine ⟨uploadRank_lt_iff hnodup huq hv, ?_⟩
    intro hne hreq
    have hid : u.id ≠ v.id := fun h =>
      hne (eq_of_uploadId_eq hnodup (List.mem_of_mem_filter huq) (List.mem_of_mem_filter hv) h)
    rcases rankKeyLtb_total hid with h | h
    · have := uploadRank_lt_of_ltb huq h
      omega
    · have := uploadRank_lt_of_ltb hv h
      omega

theorem GetUploadByID_rank_spec_witness :
    GetUploadByID (fun _ => true) rankTestStore 1 =
      some ({ id := 1, uploadedAt := 0, state := .queued }, some 1) ∧
    ∃ w ∈ queuedUploads rankTestStore, uploadRank rankTestStore w = 4 := by
  have h := @GetUploadByID_rank_spec rankTestStore (fun _ => true)
    { id := 1, uploadedAt := 0, state := .queued }
    (by decide) (by decide) (by decide) rfl
  exact ⟨(h.2.1 rfl).1, h.2.2.2 4 (by decide) (by decide)⟩

theorem referencingUploadIds_nodup (pkgs refs : List PackageRow) (id : Nat) :
    (referencingUploadIds pkgs refs id).Nodup :=
  List.nodup_dedup _

theorem mem_referencingUploadIds {pkgs refs : List PackageRow} {id j : Nat} :
    j ∈ referencingUploadIds pkgs refs id ↔
      (j ≠ id ∧ ∃ r ∈ refs, r.dumpId = j ∧
        ∃ p ∈ pkgs, p.dumpId = id ∧ pkgMatches p r = true) := by
  unfold referencingUploadIds
  rw [List.mem_dedup, List.mem_map]
  constructor
  · rintro ⟨r, hr, rfl⟩
    rw [List.mem_filter] at hr
    obtain ⟨hrin, hcond⟩ := hr
    simp only [Bool.and_eq_true, Bool.not_eq_true', decide_eq_false_iff_not,
      List.any_eq_true, decide_eq_true_eq] at hcond
    obtain ⟨hne, p, hp, hpid, hm⟩ := hcond
    exact ⟨hne, r, hrin, rfl, p, hp, hpid, hm⟩
  · rintro ⟨hne, r, hrin, rfl, p, hp, hpid, hm⟩
    refine ⟨r, List.mem_filter.mpr ⟨hrin, ?_⟩, rfl⟩
    simp only [Bool.and_eq_true, Bool.not_eq_true', decide_eq_false_iff_not,
      List.any_eq_true, decide_eq_true_eq]
    exact ⟨hne, p, hp, hpid, hm⟩

/-- C5: for every given upload, `UpdateNumReferences` stores the number of
distinct other uploads declaring a `PackageReference` matching one of the
upload's exported packages; the referencing-upload set is characterized
exactly (soundness and completeness), never contains the upload's own id,
is unchanged by a reference row the upload declares on itself, and rows
outside the given id set are untouched.  The stored count is a natural
number, so it can never go negative. -/
theorem UpdateNumReferences_spec (st : Store) (ids : List Nat) {u : Upload}
    (hnodup : (uploadIds st).Nodup) (hu : u ∈ st.uploads) (hin : u.id ∈ ids) :
    findUpload (UpdateNumReferences st ids) u.id =
      some { u with
        numReferences := (referencingUploadIds st.packages st.references u.id).length } ∧
    (referencingUploadIds st.packages st.references u.id).Nodup ∧
    (∀ j, j ∈ referencingUploadIds st.packages st.references u.id ↔
      (j ≠ u.id ∧ ∃ r ∈ st.references, r.dumpId = j ∧
        ∃ p ∈ st.packages, p.dumpId = u.id ∧ pkgMatches p r = true)) ∧
    u.id ∉ referencingUploadIds st.packages st.references u.id ∧
    (∀ r0 : PackageRow, r0.dumpId = u.id →
      referencingUploadIds st.packages (r0 :: st.references) u.id =
        referencingUploadIds st.packages st.references u.id) ∧
    (∀ v ∈ st.uploads, v.id ∉ ids → findUpload (UpdateNumReferences st ids) v.id = some v) := by
  refine ⟨?_, referencingUploadIds_nodup _ _ _, fun j => mem_referencingUploadIds, ?_, ?_, ?_⟩
  · simp only [UpdateNumReferences, findUpload]
    rw [find?_id_map (fun v => by by_cases h : v.id ∈ ids <;> simp [h]),
      find?_id_of_mem hnodup hu]
    simp [hin]
  · intro h
    exact (mem_referencingUploadIds.mp h).1 rfl
  · intro r0 h0
    unfold referencingUploadIds
    rw [List.filter_cons]
    have hc : ((!decide (r0.dumpId = u.id)) &&
        st.packages.any (fun p => decide (p.dumpId = u.id) && pkgMatches p r0)) = false := by
      simp [h0]
    rw [hc]
    simp
  · intro v hv hout
    simp only [UpdateNumReferences, findUpload]
    rw [find?_id_map (fun w => by by_cases h : w.id ∈ ids <;> simp [h]),
      find?_id_of_mem hnodup hv]
    simp [hout]

theorem UpdateNumReferences_spec_witness :
    findUpload (UpdateNumReferences pkgFixtureStore [50, 51, 52, 53, 54, 55, 56]) 53 =
      some { id := 53, numReferences := 5 } ∧
    (53 : Nat) ∉ referencingUploadIds pkgFixtureStore.packages pkgFixtureStore.references 53 := by
  have h := @UpdateNumReferences_spec pkgFixtureStore [50, 51, 52, 53, 54, 55, 56]
    { id := 53 } (by decide) (by decide) (by decide)
  exact ⟨h.1, h.2.2.2.1⟩

/-- C6: `UpdateDependencyNumReferences(uploadIDs, removed=true)` lowers
every upload's stored reference count by the number of its referencing
uploads that are being removed, clamped at zero; on the concrete scenario
of the claim (two uploads referencing p1@1.2.3, one upload exporting it)
the exporter's count goes from 2 to 1 after removing one referencing
upload; and `HardDeleteUploadByID` performs exactly this cascade before
removing the deleted upload's rows. -/
theorem UpdateDependencyNumReferences_spec (st : Store) (ids : List Nat) (id0 : Nat)
    {u : Upload} (hnodup : (uploadIds st).Nodup) (hu : u ∈ st.uploads) :
    findUpload (UpdateDependencyNumReferences st ids true) u.id =
      some { u with
        numReferences := u.numReferences -
          ((referencingUploadIds st.packages st.references u.id).filter
            (fun j => decide (j ∈ ids))).length } ∧
    ((u.numReferences -
        ((referencingUploadIds st.packages st.references u.id).filter
          (fun j => decide (j ∈ ids))).length : Nat) : Int) =
      max 0 ((u.numReferences : Int) -
        (((referencingUploadIds st.packages st.references u.id).filter
          (fun j => decide (j ∈ ids))).length : Int)) ∧
    (HardDeleteUploadByID st id0).uploads =
      (UpdateDependencyNumReferences st [id0] true).uploads.filter
        (fun v => !decide (v.id = id0)) ∧
    numReferencesOf (UpdateNumReferences depScenarioStore [1, 2, 3]) 1 = some 2 ∧
    numReferencesOf
      (UpdateDependencyNumReferences (UpdateNumReferences depScenarioStore [1, 2, 3]) [2] true) 1 =
        some 1 := by
  refine ⟨?_, by omega, rfl, by decide, by decide⟩
  simp only [UpdateDependencyNumReferences, findUpload]
  rw [find?_id_map (fun v => by rfl), find?_id_of_mem hnodup hu]
  simp

theorem UpdateDependencyNumReferences_spec_witness :
    findUpload (UpdateDependencyNumReferences
        (UpdateNumReferences pkgFixtureStore [50, 51, 52, 53, 54, 55, 56]) [50, 51, 52] true) 53 =
      some { id := 53, numReferences := 3 } := by
  have h := @UpdateDependencyNumReferences_spec
    (UpdateNumReferences pkgFixtureStore [50, 51, 52, 53, 54, 55, 56]) [50, 51, 52] 51
    { id := 53, numReferences := 5 } (by decide) (by decide)
  exact h.1

theorem mem_markRepositoryAsDirty_of_mem {r a : Nat} {d : List Nat} (h : r ∈ d) :
    r ∈ markRepositoryAsDirty a d := by
  unfold markRepositoryAsDirty
  split
  · exact h
  · exact List.mem_cons_of_mem a h

theorem mem_foldl_markRepositoryAsDirty (rs : List Nat) (d : List Nat) (r : Nat)
    (h : r ∈ rs ∨ r ∈ d) :
    r ∈ rs.foldl (fun acc x => markRepositoryAsDirty x acc) d := by
  induction rs generalizing d with
  | nil =>
      rcases h with h | h
      · cases h
      · simpa using h
  | cons a t ih =>
      simp only [List.foldl_cons]
      apply ih
      rcases h with h | h
      · rcases List.mem_cons.mp h with h | h
        · subst h
          exact Or.inr (mem_markRepositoryAsDirty r d)
        · exact Or.inl h
      · exact Or.inr (mem_markRepositoryAsDirty_of_mem h)

/-- C1 (counterexample): on the store of `TestSoftDeleteExpiredUploads`,
upload 54 is flagged expired and is not referenced by any non-expired
upload's `PackageReference` (its only referencer, upload 51, is itself
expired), so under the claim's condition it would transition to
`deleting`; the store nevertheless keeps it `completed` and reports only
2 transitioned uploads, because its eligibility condition is the stored
`num_references = 0`, which counts expired referencers too. -/
theorem SoftDeleteExpiredUploads_nonExpiredReference_counterexample :
    (∃ u ∈ softDeleteTestStore.uploads, u.id = 54 ∧ u.state = .completed ∧
      softDeleteEligibleSpec softDeleteTestStore u) ∧
    stateOf (SoftDeleteExpiredUploads softDeleteTestStore).2 54 = some .completed ∧
    (SoftDeleteExpiredUploads softDeleteTestStore).1 = 2 := by
  exact ⟨by decide, by decide, by decide⟩

/-- C1 (amended): with freshly recomputed reference counts, the uploads
transitioning `completed → deleting` under `SoftDeleteExpiredUploads` are
exactly the expired completed uploads referenced by no other upload at
all (expired or not); in particular an upload whose package is still
referenced by any other upload — so certainly the unique provider of a
package depended on by a non-expired upload — keeps state `completed`
regardless of its own expired flag; the operation returns the number of
eligible uploads and marks their repositories dirty. -/
theorem SoftDeleteExpiredUploads_spec (st : Store) {u : Upload}
    (hnodup : (uploadIds st).Nodup) (hu : u ∈ st.uploads)
    (hfresh : ∀ v ∈ st.uploads, v.numReferences =
      (referencingUploadIds st.packages st.references v.id).length) :
    stateOf (SoftDeleteExpiredUploads st).2 u.id =
      some (if u.state = .completed ∧ u.expired = true ∧
          referencingUploadIds st.packages st.references u.id = []
        then .deleting else u.state) ∧
    (u.state = .completed →
      (∃ r ∈ st.references, r.dumpId ≠ u.id ∧
        ∃ p ∈ st.packages, p.dumpId = u.id ∧ pkgMatches p r = true) →
      stateOf (SoftDeleteExpiredUploads st).2 u.id = some .completed) ∧
    (SoftDeleteExpiredUploads st).1 = (st.uploads.filter softDeleteEligible).length ∧
    (softDeleteEligible u = true → u.repositoryId ∈ (SoftDeleteExpiredUploads st).2.dirty) := by
  have hbool : softDeleteEligible u = true ↔
      (u.state = .completed ∧ u.expired = true ∧
        referencingUploadIds st.packages st.references u.id = []) := by
    unfold softDeleteEligible
    rw [hfresh u hu]
    simp only [Bool.and_eq_true, decide_eq_true_eq, List.length_eq_zero]
    tauto
  have h1 : stateOf (SoftDeleteExpiredUploads st).2 u.id =
      some (if u.state = .completed ∧ u.expired = true ∧
          referencingUploadIds st.packages st.references u.id = []
        then .deleting else u.state) := by
    simp only [SoftDeleteExpiredUploads, stateOf, findUpload]
    rw [find?_id_map (fun v => by by_cases h : softDeleteEligible v = true <;> simp [h]),
      find?_id_of_mem hnodup hu]
    by_cases h : u.state = .completed ∧ u.expired = true ∧
        referencingUploadIds st.packages st.references u.id = []
    · rw [if_pos h]
      have he := hbool.mpr h
      simp [he]
    · rw [if_neg h]
      have he : softDeleteEligible u = false :=
        Bool.eq_false_iff.mpr (fun hc => h (hbool.mp hc))
      simp [he]
  refine ⟨h1, ?_, rfl, ?_⟩
  · rintro hc ⟨r, hr, hne, p, hp, hpid, hm⟩
    have hmem : r.dumpId ∈ referencingUploadIds st.packages st.references u.id :=
      mem_referencingUploadIds.mpr ⟨hne, r, hr, rfl, p, hp, hpid, hm⟩
    have hnonempty : referencingUploadIds st.packages st.references u.id ≠ [] :=
      List.ne_nil_of_mem hmem
    rw [h1, if_neg (fun hcond => hnonempty hcond.2.2), hc]
  · intro helig
    simp only [SoftDeleteExpiredUploads]
    apply mem_foldl_markRepositoryAsDirty
    exact Or.inl (List.mem_map.mpr ⟨u, List.mem_filter.mpr ⟨hu, helig⟩, rfl⟩)

theorem SoftDeleteExpiredUploads_spec_witness :
    stateOf (SoftDeleteExpiredUploads softDeleteTestStore).2 51 = some .deleting ∧
    (50 : Nat) ∈ (SoftDeleteExpiredUploads softDeleteTestStore).2.dirty ∧
    (SoftDeleteExpiredUploads softDeleteTestStore).1 = 2 := by
  have h51 := @SoftDeleteExpiredUploads_spec softDeleteTestStore
    { id := 51, expired := true } (by decide) (by decide) (by decide)
  refine ⟨?_, h51.2.2.2 (by decide), by decide⟩
  rw [h51.1]
  decide

theorem scanLe_total (l : List (Nat × Int)) : ∀ a b, scanLe l a b ∨ scanLe l b a := by
  intro a b
  unfold scanLe scanLeb
  cases lookupScan l a <;> cases lookupScan l b <;> simp <;> omega

theorem scanLe_trans (l : List (Nat × Int)) :
    ∀ a b c, scanLe l a b → scanLe l b c → scanLe l a c := by
  intro a b c
  unfold scanLe scanLeb
  cases lookupScan l a <;> cases lookupScan l b <;> cases lookupScan l c <;>
    simp <;> omega

theorem lookupScan_setScan_self (l : List (Nat × Int)) (r : Nat) (now : Int) :
    lookupScan (setScan l r now) r = some now := by
  induction l with
  | nil => simp [setScan, lookupScan, List.find?]
  | cons p t ih =>
      unfold setScan
      by_cases h : p.1 = r
      · simp [h, lookupScan, List.find?]
      · simp only [if_neg h]
        unfold lookupScan at ih ⊢
        simp only [List.find?]
        have hd : (decide (p.1 = r)) = false := by simp [h]
        rw [hd]
        exact ih

theorem lookupScan_setScan_other (l : List (Nat × Int)) (r x : Nat) (now : Int)
    (h : x ≠ r) : lookupScan (setScan l r now) x = lookupScan l x := by
  induction l with
  | nil => simp [setScan, lookupScan, List.find?, Ne.symm h]
  | cons p t ih =>
      unfold setScan
      by_cases hp : p.1 = r
      · unfold lookupScan
        simp only [List.find?]
        have hd1 : (decide ((r, now).1 = x)) = false := by simp [Ne.symm h]
        have hd2 : (decide (p.1 = x)) = false := by simp [hp ▸ Ne.symm h]
        simp only [if_pos hp]
        simp only [List.find?, hd1, hd2]
      · simp only [if_neg hp]
        unfold lookupScan at ih ⊢
        simp only [List.find?]
        by_cases hx : p.1 = x
        · simp [hx]
        · have hd : (decide (p.1 = x)) = false := by simp [hx]
          rw [hd]
          exact ih

theorem lookupScan_touchScans (l : List (Nat × Int)) (rs : List Nat) (now : Int) (x : Nat) :
    lookupScan (touchScans l rs now) x = if x ∈ rs then some now else lookupScan l x := by
  induction rs generalizing l with
  | nil => simp [touchScans]
  | cons r t ih =>
      have hstep : touchScans l (r :: t) now = touchScans (setScan l r now) t now := rfl
      rw [hstep, ih]
      by_cases hmem : x ∈ t
      · simp [hmem, List.mem_cons]
      · by_cases hx : x = r
        · subst hx
          simp [hmem, lookupScan_setScan_self]
        · simp [hmem, hx, lookupScan_setScan_other l r x now hx]

theorem selectReposForScan_sel (l : List (Nat × Int)) (interval : Int) (limit : Nat)
    (now : Int) (candidates : List Nat) {r : Nat}
    (h : r ∈ (selectReposForScan l interval limit now candidates).1) :
    r ∈ candidates ∧ scanDue interval now (lookupScan l r) = true := by
  have h1 : r ∈ List.insertionSort (scanLe l)
      (candidates.filter (fun x => scanDue interval now (lookupScan l x))) :=
    List.take_subset _ _ h
  rw [List.mem_insertionSort] at h1
  have h2 := List.mem_filter.mp h1
  exact ⟨h2.1, h2.2⟩

theorem selectReposForScan_touched (l : List (Nat × Int)) (interval : Int) (limit : Nat)
    (now : Int) (candidates : List Nat) {r : Nat}
    (h : r ∈ (selectReposForScan l interval limit now candidates).1) :
    lookupScan (selectReposForScan l interval limit now candidates).2 r = some now := by
  have : (selectReposForScan l interval limit now candidates).2 =
      touchScans l (selectReposForScan l interval limit now candidates).1 now := rfl
  rw [this, lookupScan_touchScans]
  simp [h]

/-- C7: both repository-scan selectors return at most `limit` candidate
repositories, each due (never scanned, or scanned longer than `interval`
ago), ordered least-recently-scanned first; when nothing is due the
result is the empty list; and a repository just returned (and thereby
touched) is not returned by the following call until more than `interval`
has elapsed since it was touched. -/
theorem selectRepositoriesForScan_spec (st : Store) (interval : Int) (limit : Nat)
    (now : Int) :
    ((selectRepositoriesForIndexScan st interval limit now).1.length ≤ limit ∧
      (∀ r ∈ (selectRepositoriesForIndexScan st interval limit now).1,
        r ∈ st.searchContextRepos ∧
        scanDue interval now (lookupScan st.lastIndexScan r) = true) ∧
      List.Sorted (scanLe st.lastIndexScan)
        (selectRepositoriesForIndexScan st interval limit now).1 ∧
      ((∀ r ∈ st.searchContextRepos,
          scanDue interval now (lookupScan st.lastIndexScan r) = false) →
        (selectRepositoriesForIndexScan st interval limit now).1 = []) ∧
      (∀ r ∈ (selectRepositoriesForIndexScan st interval limit now).1,
        ∀ limit2 : Nat, ∀ now2 : Int, now2 - now ≤ interval →
          r ∉ (selectRepositoriesForIndexScan
            (selectRepositoriesForIndexScan st interval limit now).2
            interval limit2 now2).1)) ∧
    ((selectRepositoriesForRetentionScan st interval limit now).1.length ≤ limit ∧
      (∀ r ∈ (selectRepositoriesForRetentionScan st interval limit now).1,
        r ∈ retentionCandidates st ∧
        scanDue interval now (lookupScan st.lastRetentionScan r) = true) ∧
      List.Sorted (scanLe st.lastRetentionScan)
        (selectRepositoriesForRetentionScan st interval limit now).1 ∧
      ((∀ r ∈ retentionCandidates st,
          scanDue interval now (lookupScan st.lastRetentionScan r) = false) →
        (selectRepositoriesForRetentionScan st interval limit now).1 = []) ∧
      (∀ r ∈ (selectRepositoriesForRetentionScan st interval limit now).1,
        ∀ limit2 : Nat, ∀ now2 : Int, now2 - now ≤ interval →
          r ∉ (selectRepositoriesForRetentionScan
            (selectRepositoriesForRetentionScan st interval limit now).2
            interval limit2 now2).1)) := by
  have core : ∀ (l : List (Nat × Int)) (cands : List Nat),
      (selectReposForScan l interval limit now cands).1.length ≤ limit ∧
      (∀ r ∈ (selectReposForScan l interval limit now cands).1,
        r ∈ cands ∧ scanDue interval now (lookupScan l r) = true) ∧
      List.Sorted (scanLe l) (selectReposForScan l interval limit now cands).1 ∧
      ((∀ r ∈ cands, scanDue interval now (lookupScan l r) = false) →
        (selectReposForScan l interval limit now cands).1 = []) ∧
      (∀ r ∈ (selectReposForScan l interval limit now cands).1,
        ∀ limit2 : Nat, ∀ now2 : Int, now2 - now ≤ interval → ∀ cands2 : List Nat,
          r ∉ (selectReposForScan (selectReposForScan l interval limit now cands).2
            interval limit2 now2 cands2).1) := by
    intro l cands
    haveI hTot : IsTotal Nat (scanLe l) := ⟨scanLe_total l⟩
    haveI hTrans : IsTrans Nat (scanLe l) := ⟨scanLe_trans l⟩
    refine ⟨?_, ?_, ?_, ?_, ?_⟩
    · have h2 : (selectReposForScan l interval limit now cands).1.length =
          min limit (List.insertionSort (scanLe l)
            (cands.filter (fun x => scanDue interval now (lookupScan l x)))).length :=
        List.length_take _ _
      omega
    · intro r hr
      exact selectReposForScan_sel l interval limit now cands hr
    · exact (List.sorted_insertionSort (scanLe l) _).sublist (List.take_sublist _ _)
    · intro hnone
      have hfil : cands.filter (fun x => scanDue interval now (lookupScan l x)) = [] := by
        rw [List.filter_eq_nil_iff]
        intro x hx
        rw [hnone x hx]
        simp
      show ((List.insertionSort (scanLe l) _).take limit) = []
      rw [hfil]
      simp
    · intro r hr limit2 now2 hcool cands2 hmem
      have hlook := selectReposForScan_touched l interval limit now cands hr
      have hdue := (selectReposForScan_sel _ interval limit2 now2 cands2 hmem).2
      rw [hlook] at hdue
      unfold scanDue at hdue
      simp only [decide_eq_true_eq] at hdue
      omega
  obtain ⟨a1, a2, a3, a4, a5⟩ := core st.lastIndexScan st.searchContextRepos
  obtain ⟨b1, b2, b3, b4, b5⟩ := core st.lastRetentionScan (retentionCandidates st)
  exact ⟨⟨a1, a2, a3, a4, fun r hr limit2 now2 h =>
      a5 r hr limit2 now2 h _⟩,
    ⟨b1, b2, b3, b4, fun r hr limit2 now2 h =>
      b5 r hr limit2 now2 h _⟩⟩

theorem selectRepositoriesForScan_spec_witness :
    (selectRepositoriesForIndexScan
        { searchContextRepos := [50, 51, 52, 53] } 60 2 0).1 = [50, 51] ∧
    (50 : Nat) ∉ (selectRepositoriesForIndexScan
      (selectRepositoriesForIndexScan
        { searchContextRepos := [50, 51, 52, 53] } 60 2 0).2 60 100 20).1 ∧
    (selectRepositoriesForIndexScan
      (selectRepositoriesForIndexScan
        { searchContextRepos := [50, 51, 52, 53] } 60 2 0).2 60 100 20).1 = [52, 53] := by
  have h := selectRepositoriesForScan_spec { searchContextRepos := [50, 51, 52, 53] } 60 2 0
  refine ⟨by decide, ?_, by decide⟩
  exact h.1.2.2.2.2 50 (by decide) 100 20 (by decide)

/-- C8: `GetUploadByID` answers not-found (with no error) both for a row
in state `deleted` and for a row whose repository the caller's permission
filter denies — the two outcomes are the same value `none`, so the cases
are indistinguishable to the caller — as well as for an absent row; under
an all-denying permission mapping `GetUploadsByIDs` and `GetUploads`
return no rows and a zero total count. -/
theorem GetUploadByID_authz_spec (st : Store) (visible : Nat → Bool) (id : Nat)
    (ids : List Nat) (limit offset : Nat) (hnodup : (uploadIds st).Nodup) :
    (∀ u ∈ st.uploads, u.id = id → u.state = .deleted →
      GetUploadByID visible st id = none) ∧
    (∀ u ∈ st.uploads, u.id = id → visible u.repositoryId = false →
      GetUploadByID visible st id = none) ∧
    ((∀ u ∈ st.uploads, u.id ≠ id) → GetUploadByID visible st id = none) ∧
    GetUploadsByIDs (fun _ => false) st ids = [] ∧
    GetUploads (fun _ => false) st limit offset = ([], 0) := by
  refine ⟨?_, ?_, ?_, ?_, ?_⟩
  · intro u hu hid hdel
    unfold GetUploadByID
    have hnone : st.uploads.find? (fun v =>
        decide (v.id = id) && decide (v.state ≠ .deleted) && visible v.repositoryId) = none := by
      rw [List.find?_eq_none]
      intro v hv hc
      simp only [Bool.and_eq_true, decide_eq_true_eq] at hc
      have hv_eq : v = u := eq_of_uploadId_eq hnodup hv hu (hc.1.1.trans hid.symm)
      exact hc.1.2 (hv_eq ▸ hdel)
    rw [hnone]
  · intro u hu hid hvis
    unfold GetUploadByID
    have hnone : st.uploads.find? (fun v =>
        decide (v.id = id) && decide (v.state ≠ .deleted) && visible v.repositoryId) = none := by
      rw [List.find?_eq_none]
      intro v hv hc
      simp only [Bool.and_eq_true, decide_eq_true_eq] at hc
      have hv_eq : v = u := eq_of_uploadId_eq hnodup hv hu (hc.1.1.trans hid.symm)
      rw [hv_eq, hvis] at hc
      exact Bool.false_ne_true hc.2
    rw [hnone]
  · intro hall
    unfold GetUploadByID
    have hnone : st.uploads.find? (fun v =>
        decide (v.id = id) && decide (v.state ≠ .deleted) && visible v.repositoryId) = none := by
      rw [List.find?_eq_none]
      intro v hv hc
      simp only [Bool.and_eq_true, decide_eq_true_eq] at hc
      exact hall v hv hc.1.1
    rw [hnone]
  · unfold GetUploadsByIDs
    rw [List.filter_eq_nil_iff]
    intro u _
    simp
  · unfold GetUploads
    have hrows : st.uploads.filter (fun u =>
        decide (u.state ≠ .deleted) && (fun _ : Nat => false) u.repositoryId) = [] := by
      rw [List.filter_eq_nil_iff]
      intro u _
      simp
    rw [hrows]
    simp

theorem GetUploadByID_authz_spec_witness :
    GetUploadByID (fun _ => true) { uploads := [{ id := 1, state := .deleted }] } 1 = none ∧
    GetUploadByID (fun _ => false) { uploads := [{ id := 1 }] } 1 = none ∧
    GetUploadByID (fun _ => true) { uploads := [{ id := 1 }] } 2 = none ∧
    GetUploadsByIDs (fun _ => false) { uploads := [{ id := 1 }, { id := 2 }] } [1, 2, 3] = [] ∧
    GetUploads (fun _ => false) { uploads := [{ id := 1 }, { id := 2 }] } 10 0 = ([], 0) := by
  have hdel := GetUploadByID_authz_spec { uploads := [{ id := 1, state := .deleted }] }
    (fun _ => true) 1 [] 0 0 (by decide)
  have hvis := GetUploadByID_authz_spec { uploads := [{ id := 1 }] }
    (fun _ => false) 1 [] 0 0 (by decide)
  have hmiss := GetUploadByID_authz_spec { uploads := [{ id := 1 }] }
    (fun _ => true) 2 [] 0 0 (by decide)
  have hlist := GetUploadByID_authz_spec { uploads := [{ id := 1 }, { id := 2 }] }
    (fun _ => false) 0 [1, 2, 3] 10 0 (by decide)
  exact ⟨hdel.1 { id := 1, state := .deleted } (List.mem_singleton.mpr rfl) rfl rfl,
    hvis.2.1 { id := 1 } (List.mem_singleton.mpr rfl) rfl rfl,
    hmiss.2.2.1 (by decide),
    hlist.2.2.2.1,
    hlist.2.2.2.2⟩

theorem oldestDate_eq_none_iff (l : List Int) : oldestDate l = none ↔ l = [] := by
  cases l with
  | nil => simp [oldestDate]
  | cons t ts =>
      simp only [oldestDate]
      cases oldestDate ts <;> simp

theorem oldestDate_mem {l : List Int} {t : Int} (h : oldestDate l = some t) : t ∈ l := by
  induction l generalizing t with
  | nil => cases h
  | cons a ts ih =>
      unfold oldestDate at h
      cases he : oldestDate ts with
      | none =>
          rw [he] at h
          cases h
          exact List.mem_cons_self a ts
      | some s =>
          rw [he] at h
          cases h
          rcases min_cases a s with ⟨hmin, _⟩ | ⟨hmin, _⟩
          · rw [hmin]
            exact List.mem_cons_self a ts
          · rw [hmin]
            exact List.mem_cons_of_mem a (ih he)

theorem oldestDate_le {l : List Int} {t : Int} (h : oldestDate l = some t) :
    ∀ s ∈ l, t ≤ s := by
  induction l generalizing t with
  | nil => cases h
  | cons a ts ih =>
      unfold oldestDate at h
      intro s hs
      cases he : oldestDate ts with
      | none =>
          rw [he] at h
          cases h
          have hts : ts = [] := (oldestDate_eq_none_iff ts).mp he
          rcases List.mem_cons.mp hs with h | h
          · omega
          · rw [hts] at h
            cases h
      | some m =>
          rw [he] at h
          cases h
          rcases List.mem_cons.mp hs with h | h
          · rw [h]
            exact min_le_left a m
          · exact le_trans (min_le_right a m) (ih he s h)

theorem mem_resolvedCommitDates {st : Store} {repositoryId : Nat} {t : Int} :
    t ∈ resolvedCommitDates st repositoryId ↔
      ∃ u ∈ st.uploads, u.repositoryId = repositoryId ∧ u.state = .completed ∧
        u.committedAt = .date t := by
  unfold resolvedCommitDates
  rw [List.mem_filterMap]
  constructor
  · rintro ⟨u, hu, hf⟩
    by_cases hc : u.repositoryId = repositoryId ∧ u.state = .completed
    · rw [if_pos hc] at hf
      cases hca : u.committedAt with
      | null => rw [hca] at hf; cases hf
      | negInfinity => rw [hca] at hf; cases hf
      | date s =>
          rw [hca] at hf
          cases hf
          exact ⟨u, hu, hc.1, hc.2, hca⟩
    · rw [if_neg hc] at hf
      cases hf
  · rintro ⟨u, hu, h1, h2, h3⟩
    exact ⟨u, hu, by rw [if_pos ⟨h1, h2⟩, h3]⟩

/-- C10: `GetOldestCommitDate` returns the earliest `committed_at` among
the repository's `completed` uploads with a resolved commit date (rows in
other states, NULL dates and `-infinity` sentinels never contribute), and
returns nothing — with no error — exactly when the repository has no
completed upload with a resolved date. -/
theorem GetOldestCommitDate_spec (st : Store) (repositoryId : Nat) :
    (∀ t, GetOldestCommitDate st repositoryId = some t →
      (∃ u ∈ st.uploads, u.repositoryId = repositoryId ∧ u.state = .completed ∧
        u.committedAt = .date t) ∧
      (∀ u ∈ st.uploads, u.repositoryId = repositoryId → u.state = .completed →
        ∀ s, u.committedAt = .date s → t ≤ s)) ∧
    (GetOldestCommitDate st repositoryId = none ↔
      ∀ u ∈ st.uploads, u.repositoryId = repositoryId → u.state = .completed →
        ∀ s, u.committedAt ≠ .date s) := by
  constructor
  · intro t h
    constructor
    · exact mem_resolvedCommitDates.mp (oldestDate_mem h)
    · intro u hu h1 h2 s h3
      exact oldestDate_le h s (mem_resolvedCommitDates.mpr ⟨u, hu, h1, h2, h3⟩)
  · unfold GetOldestCommitDate
    rw [oldestDate_eq_none_iff, List.eq_nil_iff_forall_not_mem]
    constructor
    · intro hnone u hu h1 h2 s h3
      exact hnone s (mem_resolvedCommitDates.mpr ⟨u, hu, h1, h2, h3⟩)
    · intro hall s hs
      obtain ⟨u, hu, h1, h2, h3⟩ := mem_resolvedCommitDates.mp hs
      exact hall u hu h1 h2 s h3

theorem GetOldestCommitDate_spec_witness :
    GetOldestCommitDate commitDateTestStore 50 = some 4 ∧
    GetOldestCommitDate commitDateTestStore 51 = some 1 ∧
    GetOldestCommitDate commitDateTestStore 52 = none ∧
    (∃ u ∈ commitDateTestStore.uploads, u.repositoryId = 50 ∧ u.state = .completed ∧
      u.committedAt = .date 4) := by
  have h50 := GetOldestCommitDate_spec commitDateTestStore 50
  have h52 := GetOldestCommitDate_spec commitDateTestStore 52
  have hd : ∀ u ∈ commitDateTestStore.uploads, u.repositoryId ≠ 52 := by decide
  exact ⟨by decide, by decide,
    h52.2.mpr (fun u hu h1 h2 s h3 => absurd h1 (hd u hu)), (h50.1 4 (by decide)).1⟩

end UploadStore

